import Mathlib

/-!
Shallow embedding of `src/simulation.py` (vcd2tex): the VCD reconstruction
core (`VcdSimulation.time_changes`, `VcdSimulation.to_events`) and the
timing-diagram renderer (`Channel.value_at`, `Channel.next_event`,
`Channel.to_tikz_line`).

Modelling conventions:
  - Python tokens (pyvcd `vcd.reader.Token`) become a closed inductive
    `Token`; `token.kind` is the projection to `TokenKind`.
  - Change payloads carry an id-code and a single value symbol (a `Char`,
    the spec's per-bit alphabet \x7b0,1,X,Z,...\x7d).
  - Python dicts (insertion-ordered) become association lists with unique
    keys kept in insertion order; `dict[k] = v` on a present key replaces
    the value in place, on an absent key appends at the end.
  - Python runtime crashes (NameError when a change precedes any timestamp
    marker, IndexError when a bit index is out of range of the value
    buffer, TypeError when `sorted` compares a missing bit index) are
    modelled by `Option`: `none` is an aborted pass.
  - `sorted(..., key=..., reverse=True)` is a stable descending sort; it is
    embedded with `List.insertionSort` (stable, extensionally equal to any
    stable sort).
-/

namespace Vcd

/-- Token kinds used by the core (pyvcd `TokenKind`). -/
inductive TokenKind where
  | SCOPE
  | VAR
  | CHANGE_TIME
  | CHANGE_SCALAR
  | CHANGE_VECTOR
  | CHANGE_REAL
  | CHANGE_STRING
  | MISC
  deriving DecidableEq

/-- Variable declaration payload (pyvcd `VarDecl`): reference name,
optional bit index, id code. -/
structure VarDecl where
  reference : String
  bit_index : Option Nat
  id_code : String
  deriving DecidableEq

/-- Value-change payload (pyvcd `ScalarChange` / `VectorChange` /
`RealChange` / `StringChange`): id code and new value symbol. -/
structure Change where
  id_code : String
  value : Char
  deriving DecidableEq

/-- A token of the input stream: constructor = kind, field = payload. -/
inductive Token where
  | scopeTok (ident : String)
  | varTok (decl : VarDecl)
  | timeTok (time : Nat)
  | scalarTok (c : Change)
  | vectorTok (c : Change)
  | realTok (c : Change)
  | stringTok (c : Change)
  | miscTok
  deriving DecidableEq

/-- `token.kind` of the Python code. -/
def Token.kind : Token → TokenKind
  | .scopeTok _ => .SCOPE
  | .varTok _ => .VAR
  | .timeTok _ => .CHANGE_TIME
  | .scalarTok _ => .CHANGE_SCALAR
  | .vectorTok _ => .CHANGE_VECTOR
  | .realTok _ => .CHANGE_REAL
  | .stringTok _ => .CHANGE_STRING
  | .miscTok => .MISC

/-- `token.data` viewed as a change payload (defined exactly on the four
change kinds). -/
def Token.changeData : Token → Option Change
  | .scalarTok c => some c
  | .vectorTok c => some c
  | .realTok c => some c
  | .stringTok c => some c
  | _ => none

/-- The guard of line 53 of `simulation.py`, with Python's chained
comparison expanded:
`kind == CHANGE_SCALAR or kind == CHANGE_VECTOR or
 kind == CHANGE_REAL == kind == CHANGE_STRING`
where the last disjunct means
`kind == CHANGE_REAL and CHANGE_REAL == kind and kind == CHANGE_STRING`. -/
def changeCond (k : TokenKind) : Prop :=
  k = TokenKind.CHANGE_SCALAR ∨ k = TokenKind.CHANGE_VECTOR ∨
    (k = TokenKind.CHANGE_REAL ∧ TokenKind.CHANGE_REAL = k ∧ k = TokenKind.CHANGE_STRING)

instance changeCondDec : DecidablePred changeCond := fun k => by
  unfold changeCond
  infer_instance

theorem changeCond_scalar : changeCond TokenKind.CHANGE_SCALAR := by decide

theorem changeCond_vector : changeCond TokenKind.CHANGE_VECTOR := by decide

theorem changeCond_not_scope : ¬ changeCond TokenKind.SCOPE := by decide

theorem changeCond_not_var : ¬ changeCond TokenKind.VAR := by decide

theorem changeCond_not_real : ¬ changeCond TokenKind.CHANGE_REAL := by decide

theorem changeCond_not_string : ¬ changeCond TokenKind.CHANGE_STRING := by decide

theorem changeCond_not_misc : ¬ changeCond TokenKind.MISC := by decide

/-- Python `acc[time] = []` on an insertion-ordered dict: replace in place
when the key is present, append otherwise. -/
def dictSetEmpty (acc : List (Nat × List Change)) (t : Nat) : List (Nat × List Change) :=
  if acc.any (fun e => e.1 = t) then
    acc.map (fun e => if e.1 = t then (e.1, []) else e)
  else
    acc ++ [(t, [])]

/-- Python `acc[time].append(change)`: extend the list stored at the key. -/
def dictAppendAt (acc : List (Nat × List Change)) (t : Nat) (c : Change) :
    List (Nat × List Change) :=
  acc.map (fun e => if e.1 = t then (e.1, e.2 ++ [c]) else e)

/-- Python `acc[t]` as a read. -/
def dictLookup (t : Nat) (acc : List (Nat × List Change)) : Option (List Change) :=
  (acc.find? (fun e => e.1 = t)).map Prod.snd

/-- The loop body of `VcdSimulation.time_changes`, threading the
`time` cursor and the accumulator. `none` models the Python `NameError`
raised when a change token arrives before any timestamp marker. -/
def timeChangesGo : List Token → Option Nat → List (Nat × List Change) →
    Option (Option Nat × List (Nat × List Change))
  | [], time, acc => some (time, acc)
  | Token.timeTok t :: rest, _, acc =>
      timeChangesGo rest (some t) (dictSetEmpty acc t)
  | tok :: rest, time, acc =>
      if changeCond tok.kind then
        match time, tok.changeData with
        | some t, some c => timeChangesGo rest time (dictAppendAt acc t c)
        | _, _ => none
      else
        timeChangesGo rest time acc

/-- `VcdSimulation.time_changes` (lines 46-56 of `simulation.py`). -/
def time_changes (tokens : List Token) : Option (List (Nat × List Change)) :=
  (timeChangesGo tokens none []).map Prod.snd

/-- The timestamps carried by the timestamp-marker tokens, in stream order. -/
def markerTimes (tokens : List Token) : List Nat :=
  tokens.filterMap fun tok =>
    match tok with
    | .timeTok t => some t
    | _ => none

/-- True on every token that is not a timestamp marker. -/
def notTimeTok (tok : Token) : Bool :=
  match tok with
  | .timeTok _ => false
  | _ => true

/-- The changes the timeline builder records from a token stretch before
the next timestamp marker (only kinds passing the line-53 guard count). -/
def recordedChanges (tokens : List Token) : List Change :=
  (tokens.takeWhile notTimeTok).filterMap fun tok =>
    if changeCond tok.kind then tok.changeData else none

theorem timeChangesGo_time (t : Nat) (rest : List Token) (time : Option Nat)
    (acc : List (Nat × List Change)) :
    timeChangesGo (Token.timeTok t :: rest) time acc =
      timeChangesGo rest (some t) (dictSetEmpty acc t) := by
  simp only [timeChangesGo]

theorem timeChangesGo_scalar (c : Change) (rest : List Token) (t : Nat)
    (acc : List (Nat × List Change)) :
    timeChangesGo (Token.scalarTok c :: rest) (some t) acc =
      timeChangesGo rest (some t) (dictAppendAt acc t c) := by
  simp only [timeChangesGo, Token.changeData, Token.kind]
  rw [if_pos changeCond_scalar]

theorem timeChangesGo_vector (c : Change) (rest : List Token) (t : Nat)
    (acc : List (Nat × List Change)) :
    timeChangesGo (Token.vectorTok c :: rest) (some t) acc =
      timeChangesGo rest (some t) (dictAppendAt acc t c) := by
  simp only [timeChangesGo, Token.changeData, Token.kind]
  rw [if_pos changeCond_vector]

theorem timeChangesGo_scalar_none (c : Change) (rest : List Token)
    (acc : List (Nat × List Change)) :
    timeChangesGo (Token.scalarTok c :: rest) none acc = none := by
  simp only [timeChangesGo, Token.changeData, Token.kind]
  rw [if_pos changeCond_scalar]

theorem timeChangesGo_vector_none (c : Change) (rest : List Token)
    (acc : List (Nat × List Change)) :
    timeChangesGo (Token.vectorTok c :: rest) none acc = none := by
  simp only [timeChangesGo, Token.changeData, Token.kind]
  rw [if_pos changeCond_vector]

theorem timeChangesGo_scope (id : String) (rest : List Token) (time : Option Nat)
    (acc : List (Nat × List Change)) :
    timeChangesGo (Token.scopeTok id :: rest) time acc = timeChangesGo rest time acc := by
  simp only [timeChangesGo, Token.kind]
  rw [if_neg changeCond_not_scope]

theorem timeChangesGo_var (d : VarDecl) (rest : List Token) (time : Option Nat)
    (acc : List (Nat × List Change)) :
    timeChangesGo (Token.varTok d :: rest) time acc = timeChangesGo rest time acc := by
  simp only [timeChangesGo, Token.kind]
  rw [if_neg changeCond_not_var]

theorem timeChangesGo_real (c : Change) (rest : List Token) (time : Option Nat)
    (acc : List (Nat × List Change)) :
    timeChangesGo (Token.realTok c :: rest) time acc = timeChangesGo rest time acc := by
  simp only [timeChangesGo, Token.kind]
  rw [if_neg changeCond_not_real]

theorem timeChangesGo_string (c : Change) (rest : List Token) (time : Option Nat)
    (acc : List (Nat × List Change)) :
    timeChangesGo (Token.stringTok c :: rest) time acc = timeChangesGo rest time acc := by
  simp only [timeChangesGo, Token.kind]
  rw [if_neg changeCond_not_string]

theorem timeChangesGo_misc (rest : List Token) (time : Option Nat)
    (acc : List (Nat × List Change)) :
    timeChangesGo (Token.miscTok :: rest) time acc = timeChangesGo rest time acc := by
  simp only [timeChangesGo, Token.kind]
  rw [if_neg changeCond_not_misc]

theorem map_fst_updateIf (f : Nat × List Change → List Change)
    (rest : List (Nat × List Change)) (t : Nat) :
    (rest.map (fun e => if e.1 = t then (e.1, f e) else e)).map Prod.fst
      = rest.map Prod.fst := by
  induction rest with
  | nil => rfl
  | cons e2 rest2 ih =>
    by_cases he2 : e2.1 = t
    · simp only [List.map_cons, if_pos he2, ih]
    · simp only [List.map_cons, if_neg he2, ih]

theorem dictAppendAt_fst (acc : List (Nat × List Change)) (t : Nat) (c : Change) :
    (dictAppendAt acc t c).map Prod.fst = acc.map Prod.fst := by
  unfold dictAppendAt
  exact map_fst_updateIf (fun e => e.2 ++ [c]) acc t

theorem dictSetEmpty_fst_mem {acc : List (Nat × List Change)} {t : Nat}
    (h : t ∈ acc.map Prod.fst) :
    (dictSetEmpty acc t).map Prod.fst = acc.map Prod.fst := by
  have hany : acc.any (fun e => e.1 = t) = true := by
    simp only [List.any_eq_true, decide_eq_true_eq]
    obtain ⟨e, he, het⟩ := List.mem_map.mp h
    exact ⟨e, he, het⟩
  unfold dictSetEmpty
  rw [if_pos hany]
  exact map_fst_updateIf (fun _ => []) acc t

theorem dictSetEmpty_fst_not_mem {acc : List (Nat × List Change)} {t : Nat}
    (h : t ∉ acc.map Prod.fst) :
    (dictSetEmpty acc t).map Prod.fst = acc.map Prod.fst ++ [t] := by
  have hany : acc.any (fun e => e.1 = t) = false := by
    rw [List.any_eq_false]
    intro e he
    simp only [decide_eq_true_eq]
    intro het
    exact h (List.mem_map.mpr ⟨e, he, het⟩)
  unfold dictSetEmpty
  rw [hany]
  simp

theorem timeChangesGo_nodup : ∀ {tokens : List Token} {time : Option Nat}
    {acc : List (Nat × List Change)} {out : Option Nat × List (Nat × List Change)},
    (acc.map Prod.fst).Nodup → timeChangesGo tokens time acc = some out →
    (out.2.map Prod.fst).Nodup := by
  intro tokens
  induction tokens with
  | nil =>
    intro time acc out hnd h
    simp only [timeChangesGo] at h
    cases h
    exact hnd
  | cons tok rest ih =>
    intro time acc out hnd h
    cases tok with
    | timeTok t =>
      rw [timeChangesGo_time] at h
      refine ih ?_ h
      by_cases hmem : t ∈ acc.map Prod.fst
      · rw [dictSetEmpty_fst_mem hmem]
        exact hnd
      · rw [dictSetEmpty_fst_not_mem hmem]
        rw [List.nodup_append]
        refine ⟨hnd, List.nodup_singleton t, ?_⟩
        intro x hx hxt
        rw [List.mem_singleton] at hxt
        subst hxt
        exact hmem hx
    | scalarTok c =>
      cases time with
      | none =>
        rw [timeChangesGo_scalar_none] at h
        cases h
      | some t =>
        rw [timeChangesGo_scalar] at h
        refine ih ?_ h
        rw [dictAppendAt_fst]
        exact hnd
    | vectorTok c =>
      cases time with
      | none =>
        rw [timeChangesGo_vector_none] at h
        cases h
      | some t =>
        rw [timeChangesGo_vector] at h
        refine ih ?_ h
        rw [dictAppendAt_fst]
        exact hnd
    | scopeTok id =>
      rw [timeChangesGo_scope] at h
      exact ih hnd h
    | varTok d =>
      rw [timeChangesGo_var] at h
      exact ih hnd h
    | realTok c =>
      rw [timeChangesGo_real] at h
      exact ih hnd h
    | stringTok c =>
      rw [timeChangesGo_string] at h
      exact ih hnd h
    | miscTok =>
      rw [timeChangesGo_misc] at h
      exact ih hnd h

theorem time_changes_nodup {tokens : List Token} {tcs : List (Nat × List Change)}
    (h : time_changes tokens = some tcs) : (tcs.map Prod.fst).Nodup := by
  unfold time_changes at h
  rcases hg : timeChangesGo tokens none [] with _ | out
  · rw [hg] at h
    cases h
  · rw [hg] at h
    cases h
    exact timeChangesGo_nodup (by simp) hg

theorem timeChangesGo_keys : ∀ {tokens : List Token} {time : Option Nat}
    {acc : List (Nat × List Change)} {out : Option Nat × List (Nat × List Change)},
    (markerTimes tokens).Pairwise (· < ·) →
    (∀ u ∈ markerTimes tokens, ∀ k ∈ acc.map Prod.fst, k < u) →
    timeChangesGo tokens time acc = some out →
    out.2.map Prod.fst = acc.map Prod.fst ++ markerTimes tokens := by
  intro tokens
  induction tokens with
  | nil =>
    intro time acc out hpw hbd h
    simp only [timeChangesGo] at h
    cases h
    simp [markerTimes]
  | cons tok rest ih =>
    intro time acc out hpw hbd h
    cases tok with
    | timeTok t =>
      have hmt : markerTimes (Token.timeTok t :: rest) = t :: markerTimes rest := by
        simp [markerTimes, List.filterMap_cons]
      rw [hmt] at hpw hbd
      obtain ⟨ht, hpw2⟩ := List.pairwise_cons.mp hpw
      have hnotmem : t ∉ acc.map Prod.fst := by
        intro hm
        exact lt_irrefl t (hbd t (List.mem_cons_self _ _) t hm)
      rw [timeChangesGo_time] at h
      have hres := ih hpw2 ?_ h
      · rw [hres, dictSetEmpty_fst_not_mem hnotmem, hmt]
        simp
      · intro u hu k hk
        rw [dictSetEmpty_fst_not_mem hnotmem] at hk
        rcases List.mem_append.mp hk with hk2 | hk2
        · exact hbd u (List.mem_cons_of_mem _ hu) k hk2
        · rw [List.mem_singleton] at hk2
          subst hk2
          exact ht u hu
    | scalarTok c =>
      have hmt : markerTimes (Token.scalarTok c :: rest) = markerTimes rest := by
        simp [markerTimes, List.filterMap_cons]
      rw [hmt] at hpw hbd
      cases time with
      | none =>
        rw [timeChangesGo_scalar_none] at h
        cases h
      | some t =>
        rw [timeChangesGo_scalar] at h
        have hres := ih hpw ?_ h
        · rw [hres, dictAppendAt_fst, hmt]
        · intro u hu k hk
          rw [dictAppendAt_fst] at hk
          exact hbd u hu k hk
    | vectorTok c =>
      have hmt : markerTimes (Token.vectorTok c :: rest) = markerTimes rest := by
        simp [markerTimes, List.filterMap_cons]
      rw [hmt] at hpw hbd
      cases time with
      | none =>
        rw [timeChangesGo_vector_none] at h
        cases h
      | some t =>
        rw [timeChangesGo_vector] at h
        have hres := ih hpw ?_ h
        · rw [hres, dictAppendAt_fst, hmt]
        · intro u hu k hk
          rw [dictAppendAt_fst] at hk
          exact hbd u hu k hk
    | scopeTok id =>
      have hmt : markerTimes (Token.scopeTok id :: rest) = markerTimes rest := by
        simp [markerTimes, List.filterMap_cons]
      rw [hmt] at hpw hbd
      rw [timeChangesGo_scope] at h
      rw [ih hpw hbd h, hmt]
    | varTok d =>
      have hmt : markerTimes (Token.varTok d :: rest) = markerTimes rest := by
        simp [markerTimes, List.filterMap_cons]
      rw [hmt] at hpw hbd
      rw [timeChangesGo_var] at h
      rw [ih hpw hbd h, hmt]
    | realTok c =>
      have hmt : markerTimes (Token.realTok c :: rest) = markerTimes rest := by
        simp [markerTimes, List.filterMap_cons]
      rw [hmt] at hpw hbd
      rw [timeChangesGo_real] at h
      rw [ih hpw hbd h, hmt]
    | stringTok c =>
      have hmt : markerTimes (Token.stringTok c :: rest) = markerTimes rest := by
        simp [markerTimes, List.filterMap_cons]
      rw [hmt] at hpw hbd
      rw [timeChangesGo_string] at h
      rw [ih hpw hbd h, hmt]
    | miscTok =>
      have hmt : markerTimes (Token.miscTok :: rest) = markerTimes rest := by
        simp [markerTimes, List.filterMap_cons]
      rw [hmt] at hpw hbd
      rw [timeChangesGo_misc] at h
      rw [ih hpw hbd h, hmt]

/-- For a stream whose markers are strictly increasing, the keys of the
Timed Change Set are exactly the marker times, in order. -/
theorem time_changes_keys {tokens : List Token} {tcs : List (Nat × List Change)}
    (hpw : (markerTimes tokens).Pairwise (· < ·))
    (h : time_changes tokens = some tcs) :
    tcs.map Prod.fst = markerTimes tokens := by
  unfold time_changes at h
  rcases hg : timeChangesGo tokens none [] with _ | out
  · rw [hg] at h
    cases h
  · rw [hg] at h
    cases h
    simpa using timeChangesGo_keys hpw (by simp) hg

theorem dictLookup_map_updateIf {t u : Nat} (h : u ≠ t)
    (f : Nat × List Change → List Change) :
    ∀ acc, dictLookup t (acc.map (fun e => if e.1 = u then (e.1, f e) else e))
      = dictLookup t acc := by
  intro acc
  induction acc with
  | nil => rfl
  | cons e rest ih =>
    by_cases heu : e.1 = u
    · have het : ¬ (e.1 = t) := by
        rw [heu]
        exact h
      simp only [List.map_cons, if_pos heu]
      unfold dictLookup
      rw [List.find?_cons_of_neg _ (by simpa using het),
        List.find?_cons_of_neg _ (by simpa using het)]
      exact ih
    · simp only [List.map_cons, if_neg heu]
      by_cases het : e.1 = t
      · unfold dictLookup
        rw [List.find?_cons_of_pos _ (by simpa using het),
          List.find?_cons_of_pos _ (by simpa using het)]
      · unfold dictLookup
        rw [List.find?_cons_of_neg _ (by simpa using het),
          List.find?_cons_of_neg _ (by simpa using het)]
        exact ih

theorem dictAppendAt_lookup_other {t u : Nat} (h : u ≠ t) (acc : List (Nat × List Change))
    (c : Change) : dictLookup t (dictAppendAt acc u c) = dictLookup t acc := by
  unfold dictAppendAt
  exact dictLookup_map_updateIf h _ acc

theorem dictAppendAt_lookup_self (t : Nat) (c : Change) :
    ∀ acc, dictLookup t (dictAppendAt acc t c)
      = (dictLookup t acc).map (fun l => l ++ [c]) := by
  intro acc
  induction acc with
  | nil => rfl
  | cons e rest ih =>
    by_cases het : e.1 = t
    · simp only [dictAppendAt, List.map_cons, if_pos het]
      unfold dictLookup
      rw [List.find?_cons_of_pos _ (by simpa using het),
        List.find?_cons_of_pos _ (by simpa using het)]
      rfl
    · simp only [dictAppendAt, List.map_cons, if_neg het]
      unfold dictLookup
      rw [List.find?_cons_of_neg _ (by simpa using het),
        List.find?_cons_of_neg _ (by simpa using het)]
      exact ih

theorem dictLookup_append_entry_other {t u : Nat} (h : u ≠ t) :
    ∀ acc, dictLookup t (acc ++ [(u, [])]) = dictLookup t acc := by
  intro acc
  induction acc with
  | nil =>
    unfold dictLookup
    rw [List.nil_append, List.find?_cons_of_neg _ (by simpa using h)]
  | cons e rest ih =>
    by_cases het : e.1 = t
    · unfold dictLookup
      rw [List.cons_append, List.find?_cons_of_pos _ (by simpa using het),
        List.find?_cons_of_pos _ (by simpa using het)]
    · unfold dictLookup
      rw [List.cons_append, List.find?_cons_of_neg _ (by simpa using het),
        List.find?_cons_of_neg _ (by simpa using het)]
      exact ih

theorem dictLookup_append_entry_self {t : Nat} :
    ∀ {acc : List (Nat × List Change)}, (∀ e ∈ acc, ¬ (e.1 = t)) →
      dictLookup t (acc ++ [(t, [])]) = some [] := by
  intro acc
  induction acc with
  | nil =>
    intro _
    unfold dictLookup
    rw [List.nil_append, List.find?_cons_of_pos _ (by simp)]
    rfl
  | cons e rest ih =>
    intro hall
    have het := hall e (List.mem_cons_self _ _)
    unfold dictLookup
    rw [List.cons_append, List.find?_cons_of_neg _ (by simpa using het)]
    exact ih fun e2 he2 => hall e2 (List.mem_cons_of_mem _ he2)

theorem dictSetEmpty_lookup_other {t u : Nat} (h : u ≠ t) (acc : List (Nat × List Change)) :
    dictLookup t (dictSetEmpty acc u) = dictLookup t acc := by
  unfold dictSetEmpty
  by_cases hany : acc.any (fun e => e.1 = u)
  · rw [if_pos hany]
    exact dictLookup_map_updateIf h _ acc
  · rw [if_neg hany]
    exact dictLookup_append_entry_other h acc

theorem dictSetEmpty_lookup_self (t : Nat) (acc : List (Nat × List Change)) :
    dictLookup t (dictSetEmpty acc t) = some [] := by
  unfold dictSetEmpty
  by_cases hany : acc.any (fun e => e.1 = t)
  · rw [if_pos hany]
    simp only [List.any_eq_true, decide_eq_true_eq] at hany
    induction acc with
    | nil => simp at hany
    | cons e rest ih =>
      by_cases het : e.1 = t
      · simp only [List.map_cons, if_pos het]
        unfold dictLookup
        rw [List.find?_cons_of_pos _ (by simpa using het)]
        rfl
      · simp only [List.map_cons, if_neg het]
        unfold dictLookup
        rw [List.find?_cons_of_neg _ (by simpa using het)]
        refine ih ?_
        rcases hany with ⟨e2, he2, het2⟩
        rcases List.mem_cons.mp he2 with rfl | he3
        · exact absurd het2 het
        · exact ⟨e2, he3, het2⟩
  · rw [if_neg hany]
    refine dictLookup_append_entry_self ?_
    intro e he
    simp only [List.any_eq_true, decide_eq_true_eq] at hany
    intro het
    exact hany ⟨e, he, het⟩

theorem timeChangesGo_append : ∀ (l1 l2 : List Token) (time : Option Nat)
    (acc : List (Nat × List Change)),
    timeChangesGo (l1 ++ l2) time acc =
      match timeChangesGo l1 time acc with
      | some (time2, acc2) => timeChangesGo l2 time2 acc2
      | none => none := by
  intro l1
  induction l1 with
  | nil =>
    intro l2 time acc
    simp [timeChangesGo]
  | cons tok rest ih =>
    intro l2 time acc
    cases tok with
    | timeTok t =>
      rw [List.cons_append, timeChangesGo_time, timeChangesGo_time, ih]
    | scalarTok c =>
      cases time with
      | none =>
        rw [List.cons_append, timeChangesGo_scalar_none, timeChangesGo_scalar_none]
      | some t =>
        rw [List.cons_append, timeChangesGo_scalar, timeChangesGo_scalar, ih]
    | vectorTok c =>
      cases time with
      | none =>
        rw [List.cons_append, timeChangesGo_vector_none, timeChangesGo_vector_none]
      | some t =>
        rw [List.cons_append, timeChangesGo_vector, timeChangesGo_vector, ih]
    | scopeTok id =>
      rw [List.cons_append, timeChangesGo_scope, timeChangesGo_scope, ih]
    | varTok d =>
      rw [List.cons_append, timeChangesGo_var, timeChangesGo_var, ih]
    | realTok c =>
      rw [List.cons_append, timeChangesGo_real, timeChangesGo_real, ih]
    | stringTok c =>
      rw [List.cons_append, timeChangesGo_string, timeChangesGo_string, ih]
    | miscTok =>
      rw [List.cons_append, timeChangesGo_misc, timeChangesGo_misc, ih]

theorem timeChangesGo_lookup_away {t : Nat} : ∀ {post : List Token} {time : Option Nat}
    {acc : List (Nat × List Change)} {out : Option Nat × List (Nat × List Change)},
    t ∉ markerTimes post → time ≠ some t →
    timeChangesGo post time acc = some out →
    dictLookup t out.2 = dictLookup t acc := by
  intro post
  induction post with
  | nil =>
    intro time acc out hnm hne h
    simp only [timeChangesGo] at h
    cases h
    rfl
  | cons tok rest ih =>
    intro time acc out hnm hne h
    cases tok with
    | timeTok u =>
      have hmt : t ∉ markerTimes rest ∧ u ≠ t := by
        simp only [markerTimes, List.filterMap_cons] at hnm
        constructor
        · intro hm
          exact hnm (List.mem_cons_of_mem _ hm)
        · intro he
          subst he
          exact hnm (List.mem_cons_self _ _)
      rw [timeChangesGo_time] at h
      rw [ih hmt.1 (by simp [Ne, Option.some_inj]; intro he; exact hmt.2 he) h]
      exact dictSetEmpty_lookup_other hmt.2 acc
    | scalarTok c =>
      cases time with
      | none =>
        rw [timeChangesGo_scalar_none] at h
        cases h
      | some u =>
        have hut : u ≠ t := by
          intro he
          subst he
          exact hne rfl
        have hmt : t ∉ markerTimes rest := by
          simpa [markerTimes, List.filterMap_cons] using hnm
        rw [timeChangesGo_scalar] at h
        rw [ih hmt hne h]
        exact dictAppendAt_lookup_other hut acc c
    | vectorTok c =>
      cases time with
      | none =>
        rw [timeChangesGo_vector_none] at h
        cases h
      | some u =>
        have hut : u ≠ t := by
          intro he
          subst he
          exact hne rfl
        have hmt : t ∉ markerTimes rest := by
          simpa [markerTimes, List.filterMap_cons] using hnm
        rw [timeChangesGo_vector] at h
        rw [ih hmt hne h]
        exact dictAppendAt_lookup_other hut acc c
    | scopeTok id =>
      rw [timeChangesGo_scope] at h
      exact ih (by simpa [markerTimes, List.filterMap_cons] using hnm) hne h
    | varTok d =>
      rw [timeChangesGo_var] at h
      exact ih (by simpa [markerTimes, List.filterMap_cons] using hnm) hne h
    | realTok c =>
      rw [timeChangesGo_real] at h
      exact ih (by simpa [markerTimes, List.filterMap_cons] using hnm) hne h
    | stringTok c =>
      rw [timeChangesGo_string] at h
      exact ih (by simpa [markerTimes, List.filterMap_cons] using hnm) hne h
    | miscTok =>
      rw [timeChangesGo_misc] at h
      exact ih (by simpa [markerTimes, List.filterMap_cons] using hnm) hne h

theorem timeChangesGo_after_last_marker {t : Nat} : ∀ {post : List Token}
    {acc : List (Nat × List Change)} {l : List Change}
    {out : Option Nat × List (Nat × List Change)},
    t ∉ markerTimes post →
    dictLookup t acc = some l →
    timeChangesGo post (some t) acc = some out →
    dictLookup t out.2 = some (l ++ recordedChanges post) := by
  intro post
  induction post with
  | nil =>
    intro acc l out hnm hl h
    simp only [timeChangesGo] at h
    cases h
    simpa [recordedChanges] using hl
  | cons tok rest ih =>
    intro acc l out hnm hl h
    cases tok with
    | timeTok u =>
      have hut : u ≠ t := by
        intro he
        subst he
        exact hnm (by simp [markerTimes, List.filterMap_cons])
      have hmt : t ∉ markerTimes rest := by
        simp only [markerTimes, List.filterMap_cons] at hnm
        intro hm
        exact hnm (List.mem_cons_of_mem _ hm)
      rw [timeChangesGo_time] at h
      have hrec : recordedChanges (Token.timeTok u :: rest) = [] := by
        simp [recordedChanges, notTimeTok, List.takeWhile_cons]
      rw [hrec, List.append_nil]
      rw [timeChangesGo_lookup_away hmt
        (by simp [Ne, Option.some_inj]; intro he; exact hut he) h]
      rw [dictSetEmpty_lookup_other hut acc]
      exact hl
    | scalarTok c =>
      have hmt : t ∉ markerTimes rest := by
        simpa [markerTimes, List.filterMap_cons] using hnm
      rw [timeChangesGo_scalar] at h
      have hl2 : dictLookup t (dictAppendAt acc t c) = some (l ++ [c]) := by
        rw [dictAppendAt_lookup_self, hl]
        rfl
      have hrec : recordedChanges (Token.scalarTok c :: rest)
          = c :: recordedChanges rest := by
        simp [recordedChanges, notTimeTok, List.takeWhile_cons, List.filterMap_cons,
          Token.kind, Token.changeData, if_pos changeCond_scalar]
      rw [hrec]
      rw [ih hmt hl2 h]
      simp
    | vectorTok c =>
      have hmt : t ∉ markerTimes rest := by
        simpa [markerTimes, List.filterMap_cons] using hnm
      rw [timeChangesGo_vector] at h
      have hl2 : dictLookup t (dictAppendAt acc t c) = some (l ++ [c]) := by
        rw [dictAppendAt_lookup_self, hl]
        rfl
      have hrec : recordedChanges (Token.vectorTok c :: rest)
          = c :: recordedChanges rest := by
        simp [recordedChanges, notTimeTok, List.takeWhile_cons, List.filterMap_cons,
          Token.kind, Token.changeData, if_pos changeCond_vector]
      rw [hrec]
      rw [ih hmt hl2 h]
      simp
    | scopeTok id =>
      have hmt : t ∉ markerTimes rest := by
        simpa [markerTimes, List.filterMap_cons] using hnm
      rw [timeChangesGo_scope] at h
      have hrec : recordedChanges (Token.scopeTok id :: rest) = recordedChanges rest := by
        simp [recordedChanges, notTimeTok, List.takeWhile_cons, List.filterMap_cons,
          Token.kind, if_neg changeCond_not_scope]
      rw [hrec]
      exact ih hmt hl h
    | varTok d =>
      have hmt : t ∉ markerTimes rest := by
        simpa [markerTimes, List.filterMap_cons] using hnm
      rw [timeChangesGo_var] at h
      have hrec : recordedChanges (Token.varTok d :: rest) = recordedChanges rest := by
        simp [recordedChanges, notTimeTok, List.takeWhile_cons, List.filterMap_cons,
          Token.kind, if_neg changeCond_not_var]
      rw [hrec]
      exact ih hmt hl h
    | realTok c =>
      have hmt : t ∉ markerTimes rest := by
        simpa [markerTimes, List.filterMap_cons] using hnm
      rw [timeChangesGo_real] at h
      have hrec : recordedChanges (Token.realTok c :: rest) = recordedChanges rest := by
        simp [recordedChanges, notTimeTok, List.takeWhile_cons, List.filterMap_cons,
          Token.kind, if_neg changeCond_not_real]
      rw [hrec]
      exact ih hmt hl h
    | stringTok c =>
      have hmt : t ∉ markerTimes rest := by
        simpa [markerTimes, List.filterMap_cons] using hnm
      rw [timeChangesGo_string] at h
      have hrec : recordedChanges (Token.stringTok c :: rest) = recordedChanges rest := by
        simp [recordedChanges, notTimeTok, List.takeWhile_cons, List.filterMap_cons,
          Token.kind, if_neg changeCond_not_string]
      rw [hrec]
      exact ih hmt hl h
    | miscTok =>
      have hmt : t ∉ markerTimes rest := by
        simpa [markerTimes, List.filterMap_cons] using hnm
      rw [timeChangesGo_misc] at h
      have hrec : recordedChanges (Token.miscTok :: rest) = recordedChanges rest := by
        simp [recordedChanges, notTimeTok, List.takeWhile_cons, List.filterMap_cons,
          Token.kind, if_neg changeCond_not_misc]
      rw [hrec]
      exact ih hmt hl h

/-- Comparator of `sorted(vars.values(), key=lambda x: x.bit_index, reverse=True)`:
`a` precedes `b` when `a`'s bit index is the larger. Only applied when every
bit index is present (Python raises `TypeError` otherwise). -/
def varGe (a b : VarDecl) : Prop :=
  b.bit_index.getD 0 ≤ a.bit_index.getD 0

instance varGeDec : DecidableRel varGe := fun a b => by
  unfold varGe
  infer_instance

/-- `sorted(vars.values(), key=lambda x: x.bit_index, reverse=True)`.
`none` models the `TypeError` Python raises when two keys are compared and
some bit index is `None`; with zero or one element no comparison happens. -/
def sortVarsDesc (vars : List VarDecl) : Option (List VarDecl) :=
  if vars.length ≤ 1 then
    some vars
  else if ∀ v ∈ vars, v.bit_index.isSome then
    some (vars.insertionSort varGe)
  else
    none

/-- Python `value[index] = c`: `none` models the `IndexError` on an
out-of-range index. -/
def writeAt (value : List Char) (index : Nat) (c : Char) : Option (List Char) :=
  if index < value.length then some (value.set index c) else none

/-- `ChannelEvent` (lines 154-157 of `simulation.py`). -/
structure ChannelEvent where
  time : Nat
  value : String
  deriving DecidableEq

/-- The inner `for var in vars` loop of `to_events`: apply one change to
every matching sibling declaration, writing its buffer slot
(`index = var.bit_index if var.bit_index is not None else 0`) and raising
the `has_changed` flag. -/
def applyVarLoop (change : Change) : List VarDecl → List Char → Bool →
    Option (List Char × Bool)
  | [], value, hc => some (value, hc)
  | var :: rest, value, hc =>
      if change.id_code = var.id_code then
        match writeAt value (var.bit_index.getD 0) change.value with
        | some value2 => applyVarLoop change rest value2 true
        | none => none
      else
        applyVarLoop change rest value hc

/-- The `for change in changes` loop of `to_events`. -/
def applyChangeLoop (vars : List VarDecl) : List Change → List Char → Bool →
    Option (List Char × Bool)
  | [], value, hc => some (value, hc)
  | c :: rest, value, hc =>
      match applyVarLoop c vars value hc with
      | some (value2, hc2) => applyChangeLoop vars rest value2 hc2
      | none => none

/-- The `for time, changes in self.time_changes.items()` loop of
`to_events`: the buffer persists across timestamps, `has_changed` is reset
per timestamp, and a dirty timestamp appends `ChannelEvent(time, ''.join(value))`. -/
def toEventsLoop (svars : List VarDecl) :
    List (Nat × List Change) → List Char → List ChannelEvent →
    Option (List ChannelEvent)
  | [], _, acc => some acc
  | (time, changes) :: rest, value, acc =>
      match applyChangeLoop svars changes value false with
      | some (value2, hc) =>
          toEventsLoop svars rest value2
            (if hc then acc ++ [ChannelEvent.mk time (String.mk value2)] else acc)
      | none => none

/-- `VcdSimulation.to_events` (lines 58-73 of `simulation.py`): `vars` is
the per-channel dict of sibling declarations in insertion order
(`vars.values()`); the buffer starts as `['X'] * len(vars)`. -/
def to_events (vars : List VarDecl) (tcs : List (Nat × List Change)) :
    Option (List ChannelEvent) :=
  match sortVarsDesc vars with
  | some svars => toEventsLoop svars tcs (List.replicate vars.length 'X') []
  | none => none

/-- Some change of the list matches some sibling declaration of the
channel: the condition under which `to_events` marks a timestamp dirty. -/
def chMatch (svars : List VarDecl) (chs : List Change) : Prop :=
  ∃ c ∈ chs, ∃ v ∈ svars, c.id_code = v.id_code

theorem writeAt_length {value : List Char} {i : Nat} {c : Char} {value2 : List Char}
    (h : writeAt value i c = some value2) : value2.length = value.length := by
  unfold writeAt at h
  split at h
  · cases h
    simp
  · cases h

theorem applyVarLoop_length {change : Change} {vars : List VarDecl} :
    ∀ {value : List Char} {hc : Bool} {out : List Char × Bool},
      applyVarLoop change vars value hc = some out → out.1.length = value.length := by
  induction vars with
  | nil =>
    intro value hc out h
    simp only [applyVarLoop] at h
    cases h
    rfl
  | cons var rest ih =>
    intro value hc out h
    simp only [applyVarLoop] at h
    by_cases hid : change.id_code = var.id_code
    · rw [if_pos hid] at h
      rcases hw : writeAt value (var.bit_index.getD 0) change.value with _ | value2
      · simp [hw] at h
      · simp only [hw] at h
        rw [ih h, writeAt_length hw]
    · rw [if_neg hid] at h
      exact ih h

theorem applyVarLoop_hc {change : Change} {vars : List VarDecl} :
    ∀ {value : List Char} {hc : Bool} {out : List Char × Bool},
      applyVarLoop change vars value hc = some out →
      (out.2 = true ↔ hc = true ∨ ∃ v ∈ vars, change.id_code = v.id_code) := by
  induction vars with
  | nil =>
    intro value hc out h
    simp only [applyVarLoop] at h
    cases h
    simp
  | cons var rest ih =>
    intro value hc out h
    simp only [applyVarLoop] at h
    by_cases hid : change.id_code = var.id_code
    · rw [if_pos hid] at h
      rcases hw : writeAt value (var.bit_index.getD 0) change.value with _ | value2
      · simp [hw] at h
      · simp only [hw] at h
        have hih := ih h
        have hout : out.2 = true := hih.mpr (Or.inl rfl)
        exact ⟨fun _ => Or.inr ⟨var, List.mem_cons_self _ _, hid⟩, fun _ => hout⟩
    · rw [if_neg hid] at h
      have hih := ih h
      rw [hih]
      constructor
      · rintro (hh | ⟨v, hv, he⟩)
        · exact Or.inl hh
        · exact Or.inr ⟨v, List.mem_cons_of_mem _ hv, he⟩
      · rintro (hh | ⟨v, hv, he⟩)
        · exact Or.inl hh
        · rcases List.mem_cons.mp hv with rfl | hv2
          · exact absurd he hid
          · exact Or.inr ⟨v, hv2, he⟩

theorem applyVarLoop_nomatch {change : Change} {vars : List VarDecl}
    (hnm : ∀ v ∈ vars, change.id_code ≠ v.id_code) {value : List Char} {hc : Bool} :
    applyVarLoop change vars value hc = some (value, hc) := by
  induction vars with
  | nil => simp [applyVarLoop]
  | cons var rest ih =>
    simp only [applyVarLoop]
    rw [if_neg (hnm var (List.mem_cons_self _ _))]
    exact ih (fun v hv => hnm v (List.mem_cons_of_mem _ hv))

theorem applyChangeLoop_length {vars : List VarDecl} {chs : List Change} :
    ∀ {value : List Char} {hc : Bool} {out : List Char × Bool},
      applyChangeLoop vars chs value hc = some out → out.1.length = value.length := by
  induction chs with
  | nil =>
    intro value hc out h
    simp only [applyChangeLoop] at h
    cases h
    rfl
  | cons c rest ih =>
    intro value hc out h
    simp only [applyChangeLoop] at h
    rcases hv : applyVarLoop c vars value hc with _ | ⟨value2, hc2⟩
    · simp [hv] at h
    · simp only [hv] at h
      have h1 : value2.length = value.length := applyVarLoop_length hv
      rw [ih h, h1]

theorem applyChangeLoop_hc {vars : List VarDecl} {chs : List Change} :
    ∀ {value : List Char} {hc : Bool} {out : List Char × Bool},
      applyChangeLoop vars chs value hc = some out →
      (out.2 = true ↔ hc = true ∨ chMatch vars chs) := by
  induction chs with
  | nil =>
    intro value hc out h
    simp only [applyChangeLoop] at h
    cases h
    simp [chMatch]
  | cons c rest ih =>
    intro value hc out h
    simp only [applyChangeLoop] at h
    rcases hv : applyVarLoop c vars value hc with _ | ⟨value2, hc2⟩
    · simp [hv] at h
    · simp only [hv] at h
      have h1 := applyVarLoop_hc hv
      have h2 := ih h
      simp only [h2, h1, chMatch, List.mem_cons]
      constructor
      · rintro ((hh | hm) | hm)
        · exact Or.inl hh
        · exact Or.inr ⟨c, Or.inl rfl, hm⟩
        · rcases hm with ⟨c2, hc2m, hm2⟩
          exact Or.inr ⟨c2, Or.inr hc2m, hm2⟩
      · rintro (hh | ⟨c2, (rfl | hc2m), hm2⟩)
        · exact Or.inl (Or.inl hh)
        · exact Or.inl (Or.inr hm2)
        · exact Or.inr ⟨c2, hc2m, hm2⟩

theorem applyChangeLoop_nomatch {vars : List VarDecl} {chs : List Change}
    (hnm : ¬ chMatch vars chs) {value : List Char} {hc : Bool} :
    applyChangeLoop vars chs value hc = some (value, hc) := by
  induction chs with
  | nil => simp [applyChangeLoop]
  | cons c rest ih =>
    simp only [applyChangeLoop]
    have hc1 : applyVarLoop c vars value hc = some (value, hc) := by
      refine applyVarLoop_nomatch (fun v hv he => hnm ?_)
      exact ⟨c, List.mem_cons_self _ _, v, hv, he⟩
    rw [hc1]
    exact ih (fun ⟨c2, hc2, hm⟩ => hnm ⟨c2, List.mem_cons_of_mem _ hc2, hm⟩)

theorem toEventsLoop_spec {svars : List VarDecl} {tcs : List (Nat × List Change)} :
    ∀ {value : List Char} {acc evs : List ChannelEvent},
      toEventsLoop svars tcs value acc = some evs →
      ∃ tail, evs = acc ++ tail ∧
        (tail.map ChannelEvent.time).Sublist (tcs.map Prod.fst) ∧
        (∀ ev ∈ tail, ev.value.length = value.length) ∧
        (∀ e ∈ tcs, chMatch svars e.2 → ∃ ev ∈ tail, ev.time = e.1) ∧
        (∀ ev ∈ tail, ∃ e ∈ tcs, e.1 = ev.time ∧ chMatch svars e.2) := by
  induction tcs with
  | nil =>
    intro value acc evs h
    simp only [toEventsLoop] at h
    cases h
    exact ⟨[], by simp, by simp, by simp, by simp, by simp⟩
  | cons e rest ih =>
    obtain ⟨t, chs⟩ := e
    intro value acc evs h
    simp only [toEventsLoop] at h
    rcases hl : applyChangeLoop svars chs value false with _ | ⟨value2, hc⟩
    · simp [hl] at h
    · simp only [hl] at h
      have hlen2 : value2.length = value.length := applyChangeLoop_length hl
      have hhc := applyChangeLoop_hc hl
      cases hc with
      | true =>
        simp only [if_true, Bool.true_eq] at h
        obtain ⟨tail2, rfl, hsub, hlen, hfwd, hback⟩ := ih h
        have hmatch : chMatch svars chs := by
          rcases hhc.mp rfl with hh | hm
          · cases hh
          · exact hm
        refine ⟨ChannelEvent.mk t (String.mk value2) :: tail2, by simp, ?_, ?_, ?_, ?_⟩
        · simpa using List.Sublist.cons₂ t hsub
        · intro ev hev
          rcases List.mem_cons.mp hev with rfl | hev2
          · show (String.mk value2).length = value.length
            simpa using hlen2
          · rw [hlen ev hev2, hlen2]
        · intro e2 he2 hm2
          rcases List.mem_cons.mp he2 with rfl | he3
          · exact ⟨ChannelEvent.mk t (String.mk value2), List.mem_cons_self _ _, rfl⟩
          · obtain ⟨ev, hev, het⟩ := hfwd e2 he3 hm2
            exact ⟨ev, List.mem_cons_of_mem _ hev, het⟩
        · intro ev hev
          rcases List.mem_cons.mp hev with rfl | hev2
          · exact ⟨(t, chs), List.mem_cons_self _ _, rfl, hmatch⟩
          · obtain ⟨e2, he2, het, hm2⟩ := hback ev hev2
            exact ⟨e2, List.mem_cons_of_mem _ he2, het, hm2⟩
      | false =>
        simp only [if_neg (by simp : ¬ (false = true))] at h
        obtain ⟨tail2, rfl, hsub, hlen, hfwd, hback⟩ := ih h
        have hnom : ¬ chMatch svars chs := by
          intro hm
          have := hhc.mpr (Or.inr hm)
          cases this
        refine ⟨tail2, rfl, ?_, ?_, ?_, ?_⟩
        · exact hsub.trans (List.sublist_cons_self _ _)
        · intro ev hev
          rw [hlen ev hev, hlen2]
        · intro e2 he2 hm2
          rcases List.mem_cons.mp he2 with rfl | he3
          · exact absurd hm2 hnom
          · exact hfwd e2 he3 hm2
        · intro ev hev
          obtain ⟨e2, he2, het, hm2⟩ := hback ev hev
          exact ⟨e2, List.mem_cons_of_mem _ he2, het, hm2⟩

theorem to_events_elim {vars : List VarDecl} {tcs : List (Nat × List Change)}
    {evs : List ChannelEvent} (h : to_events vars tcs = some evs) :
    ∃ svars, sortVarsDesc vars = some svars ∧ svars.Perm vars ∧
      toEventsLoop svars tcs (List.replicate vars.length 'X') [] = some evs := by
  unfold to_events at h
  rcases hs : sortVarsDesc vars with _ | svars
  · rw [hs] at h
    cases h
  · rw [hs] at h
    refine ⟨svars, rfl, ?_, h⟩
    unfold sortVarsDesc at hs
    split at hs
    · cases hs
      exact List.Perm.refl _
    · split at hs
      · cases hs
        exact List.perm_insertionSort _ _
      · cases hs

theorem chMatch_perm {l1 l2 : List VarDecl} (hp : l1.Perm l2) {chs : List Change} :
    chMatch l1 chs ↔ chMatch l2 chs := by
  unfold chMatch
  constructor
  · rintro ⟨c, hc, v, hv, he⟩
    exact ⟨c, hc, v, hp.mem_iff.mp hv, he⟩
  · rintro ⟨c, hc, v, hv, he⟩
    exact ⟨c, hc, v, hp.mem_iff.mpr hv, he⟩

/-- `Channel` (lines 111-116 of `simulation.py`). -/
structure Channel where
  size : Nat
  module : String
  name : String
  events : List ChannelEvent
  deriving DecidableEq

/-- The scan condition `self.events[i].time <= time` of `value_at` and
`next_event`. -/
def evBefore (time : Nat) (ev : ChannelEvent) : Bool :=
  ev.time ≤ time

/-- `Channel.value_at` (lines 118-124): the while loop stops at the first
event with `time > t`, so `i` is the length of the maximal prefix
satisfying `time <= t`; return the last of that prefix, or `"X"` if the
prefix is empty. -/
def Channel.value_at (ch : Channel) (time : Nat) : String :=
  match (ch.events.takeWhile (evBefore time)).getLast? with
  | none => "X"
  | some ev => ev.value

/-- `Channel.next_event` (lines 126-132): `events[i]` for the same `i`,
i.e. the head of the remaining suffix, or `none` past the end. -/
def Channel.next_event (ch : Channel) (time : Nat) : Option ChannelEvent :=
  (ch.events.dropWhile (evBefore time)).head?

/-- One rendered run-length segment: the duration followed by the value in
braces (the f-string of line 146). -/
def segString (duration : Nat) (value : String) : String :=
  toString duration ++ "\x7b" ++ value ++ "\x7d"

theorem dropWhile_evBefore_shift {l : List ChannelEvent} {t u : Nat} (h : t ≤ u) :
    l.dropWhile (evBefore u) = (l.dropWhile (evBefore t)).dropWhile (evBefore u) := by
  induction l with
  | nil => rfl
  | cons a l ih =>
    by_cases ha : a.time ≤ t
    · have hau : a.time ≤ u := le_trans ha h
      simp only [List.dropWhile_cons, evBefore, ha, hau]
      simpa using ih
    · have hkeep : List.dropWhile (evBefore t) (a :: l) = a :: l := by
        simp [List.dropWhile_cons, evBefore, ha]
      rw [hkeep]

theorem head?_dropWhile_false {p : ChannelEvent → Bool} :
    ∀ {l : List ChannelEvent} {a : ChannelEvent},
      (l.dropWhile p).head? = some a → p a = false := by
  intro l
  induction l with
  | nil => intro a h; simp [List.dropWhile] at h
  | cons x l ih =>
    intro a h
    by_cases hx : p x
    · simp only [List.dropWhile_cons, hx, if_true] at h
      exact ih h
    · simp only [List.dropWhile_cons, hx, if_false, List.head?_cons] at h
      cases h
      simpa using hx

/-- The `while current_time < end` loop of `Channel.to_tikz_line`
(lines 138-150): emit the segment up to the next event (or the window end
when there is none), then advance to that event. Terminates because the
returned next event always has a strictly larger timestamp. -/
def tikzLoop (ch : Channel) (endT : Nat) (current_value : String) (current_time : Nat) :
    List String :=
  if current_time < endT then
    match h : ch.next_event current_time with
    | none => [segString (endT - current_time) current_value]
    | some ev =>
        segString (ev.time - current_time) current_value ::
          tikzLoop ch endT ev.value ev.time
  else
    []
termination_by (ch.events.dropWhile (evBefore current_time)).length
decreasing_by
  simp only [Channel.next_event] at h
  have hfalse : evBefore current_time ev = false := head?_dropWhile_false h
  have hlt : current_time < ev.time := by
    have := of_decide_eq_false hfalse
    omega
  have hshift : ch.events.dropWhile (evBefore ev.time) =
      (ch.events.dropWhile (evBefore current_time)).dropWhile (evBefore ev.time) :=
    dropWhile_evBefore_shift (le_of_lt hlt)
  rcases hhead : ch.events.dropWhile (evBefore current_time) with _ | ⟨b, rest⟩
  · rw [hhead] at h
    simp at h
  · have hb : b = ev := by
      rw [hhead] at h
      simpa using h
    rw [hshift, hhead, hb]
    have htrue : evBefore ev.time ev = true := by
      simp [evBefore]
    simp only [List.dropWhile_cons, htrue, if_true]
    calc (rest.dropWhile (evBefore ev.time)).length
        ≤ rest.length := (rest.dropWhile_sublist (evBefore ev.time)).length_le
      _ < rest.length + 1 := Nat.lt_succ_self _

/-- `Channel.to_tikz_line` (lines 134-152): the name-and-ampersand cell
followed by the emitted segments, joined with single spaces. -/
def Channel.to_tikz_line (ch : Channel) (start endT : Nat) : String :=
  String.intercalate " " ((ch.name ++ " &") :: tikzLoop ch endT (ch.value_at start) start)

theorem tikzLoop_done {ch : Channel} {endT ct : Nat} (cv : String)
    (h : ¬ ct < endT) : tikzLoop ch endT cv ct = [] := by
  rw [tikzLoop.eq_def]
  rw [if_neg h]

theorem tikzLoop_none {ch : Channel} {endT ct : Nat} (cv : String)
    (hlt : ct < endT) (h : ch.next_event ct = none) :
    tikzLoop ch endT cv ct = [segString (endT - ct) cv] := by
  rw [tikzLoop.eq_def]
  rw [if_pos hlt]
  split
  · rfl
  · rename_i ev h2
    rw [h] at h2
    cases h2

theorem tikzLoop_some {ch : Channel} {endT ct : Nat} (cv : String) {ev : ChannelEvent}
    (hlt : ct < endT) (h : ch.next_event ct = some ev) :
    tikzLoop ch endT cv ct = segString (ev.time - ct) cv :: tikzLoop ch endT ev.value ev.time := by
  rw [tikzLoop.eq_def]
  rw [if_pos hlt]
  split
  · rename_i h2
    rw [h] at h2
    cases h2
  · rename_i ev2 h2
    rw [h] at h2
    cases h2
    rfl

theorem takeWhile_eq_filter_of_mono {l : List ChannelEvent} {t : Nat}
    (h : l.Pairwise (fun a b => a.time < b.time)) :
    l.takeWhile (evBefore t) = l.filter (evBefore t) := by
  induction l with
  | nil => rfl
  | cons a l ih =>
    obtain ⟨ha, hl⟩ := List.pairwise_cons.mp h
    by_cases hat : a.time ≤ t
    · simp only [List.takeWhile_cons, List.filter_cons]
      rw [if_pos (by simpa [evBefore] using hat), if_pos (by simpa [evBefore] using hat)]
      rw [ih hl]
    · have hfl : l.filter (evBefore t) = [] := by
        rw [List.filter_eq_nil_iff]
        intro b hb
        have hab := ha b hb
        simp only [evBefore, decide_eq_true_eq]
        omega
      simp only [List.takeWhile_cons, List.filter_cons]
      rw [if_neg (by simpa [evBefore] using hat), if_neg (by simpa [evBefore] using hat)]
      exact hfl.symm

theorem getLast_time_max : ∀ {l : List ChannelEvent},
    l.Pairwise (fun a b => a.time < b.time) →
    ∀ {ev : ChannelEvent}, l.getLast? = some ev → ∀ x ∈ l, x.time ≤ ev.time := by
  intro l
  induction l with
  | nil =>
    intro _ ev hlast
    cases hlast
  | cons a l ih =>
    intro h ev hlast
    obtain ⟨ha, hl⟩ := List.pairwise_cons.mp h
    cases l with
    | nil =>
      have hae : a = ev := by simpa using hlast
      subst hae
      intro x hx
      rcases List.mem_singleton.mp hx with rfl
      exact le_refl _
    | cons b l2 =>
      rw [List.getLast?_cons_cons] at hlast
      intro x hx
      rcases List.mem_cons.mp hx with rfl | hx2
      · have hmem : ev ∈ b :: l2 := List.mem_of_getLast?_eq_some hlast
        exact le_of_lt (ha ev hmem)
      · exact ih hl hlast x hx2

theorem keys_nodup_eq {tcs : List (Nat × List Change)}
    (hnd : (tcs.map Prod.fst).Nodup) {t : Nat} {a b : List Change}
    (ha : (t, a) ∈ tcs) (hb : (t, b) ∈ tcs) : a = b := by
  induction tcs with
  | nil => cases ha
  | cons e rest ih =>
    rw [List.map_cons] at hnd
    obtain ⟨hn1, hn2⟩ := List.nodup_cons.mp hnd
    rcases List.mem_cons.mp ha with he | ha2
    · rcases List.mem_cons.mp hb with he2 | hb2
      · have hab : (t, a) = (t, b) := he.trans he2.symm
        exact (Prod.ext_iff.mp hab).2
      · exfalso
        have ht : e.1 = t := by rw [← he]
        rw [ht] at hn1
        exact hn1 (List.mem_map.mpr ⟨(t, b), hb2, rfl⟩)
    · rcases List.mem_cons.mp hb with he2 | hb2
      · exfalso
        have ht : e.1 = t := by rw [← he2]
        rw [ht] at hn1
        exact hn1 (List.mem_map.mpr ⟨(t, a), ha2, rfl⟩)
      · exact ih hn2 ha2 hb2

theorem toEventsLoop_nomatch {svars : List VarDecl} {tcs : List (Nat × List Change)}
    (hnm : ∀ e ∈ tcs, ¬ chMatch svars e.2) :
    ∀ (value : List Char) (acc : List ChannelEvent),
      toEventsLoop svars tcs value acc = some acc := by
  induction tcs with
  | nil =>
    intro value acc
    rfl
  | cons e rest ih =>
    intro value acc
    obtain ⟨t, chs⟩ := e
    simp only [toEventsLoop]
    rw [applyChangeLoop_nomatch (hnm (t, chs) (List.mem_cons_self _ _))]
    exact ih (fun e2 he2 => hnm e2 (List.mem_cons_of_mem _ he2)) value acc

/-- C7: for a Channel whose events are strictly increasing in timestamp (the
data-model invariant), `value_at t` returns the value of the latest event
with timestamp at most `t`, and the unknown symbol "X" when no event has
timestamp at most `t` (in particular when the event list is empty). -/
theorem C7_value_at_latest (ch : Channel) (t : Nat)
    (hsorted : ch.events.Pairwise (fun a b => a.time < b.time)) :
    ((∀ ev ∈ ch.events, ¬ ev.time ≤ t) ∧ ch.value_at t = "X") ∨
    (∃ ev ∈ ch.events, ev.time ≤ t ∧ ch.value_at t = ev.value ∧
      ∀ ev2 ∈ ch.events, ev2.time ≤ t → ev2.time ≤ ev.time) := by
  have hv : ch.value_at t =
      (match (ch.events.filter (evBefore t)).getLast? with
       | none => "X"
       | some ev => ev.value) := by
    unfold Channel.value_at
    rw [takeWhile_eq_filter_of_mono hsorted]
  rcases hlast : (ch.events.filter (evBefore t)).getLast? with _ | ev
  · left
    rw [hlast] at hv
    constructor
    · intro ev hev hle
      have hmem : ev ∈ ch.events.filter (evBefore t) :=
        List.mem_filter.mpr ⟨hev, by simpa [evBefore] using hle⟩
      have hne : ch.events.filter (evBefore t) ≠ [] := List.ne_nil_of_mem hmem
      rw [List.getLast?_eq_none_iff] at hlast
      exact hne hlast
    · simpa using hv
  · right
    rw [hlast] at hv
    have hmem : ev ∈ ch.events.filter (evBefore t) := List.mem_of_getLast?_eq_some hlast
    obtain ⟨hev1, hev2⟩ := List.mem_filter.mp hmem
    refine ⟨ev, hev1, by simpa [evBefore] using hev2, by simpa using hv, ?_⟩
    intro ev2 hev2m hle2
    have hmem2 : ev2 ∈ ch.events.filter (evBefore t) :=
      List.mem_filter.mpr ⟨hev2m, by simpa [evBefore] using hle2⟩
    exact getLast_time_max (hsorted.filter _) hlast ev2 hmem2

/-- C7 witness: for the channel with events (0,"0"), (30,"1") and t = 40,
the latest event with timestamp at most 40 is (30,"1"). -/
theorem C7_value_at_latest_witness :
    ((∀ ev ∈ (Channel.mk 1 "teste" "enable" [⟨0, "0"⟩, ⟨30, "1"⟩]).events,
        ¬ ev.time ≤ 40) ∧
      (Channel.mk 1 "teste" "enable" [⟨0, "0"⟩, ⟨30, "1"⟩]).value_at 40 = "X") ∨
    (∃ ev ∈ (Channel.mk 1 "teste" "enable" [⟨0, "0"⟩, ⟨30, "1"⟩]).events,
      ev.time ≤ 40 ∧
      (Channel.mk 1 "teste" "enable" [⟨0, "0"⟩, ⟨30, "1"⟩]).value_at 40 = ev.value ∧
      ∀ ev2 ∈ (Channel.mk 1 "teste" "enable" [⟨0, "0"⟩, ⟨30, "1"⟩]).events,
        ev2.time ≤ 40 → ev2.time ≤ ev.time) :=
  C7_value_at_latest (Channel.mk 1 "teste" "enable" [⟨0, "0"⟩, ⟨30, "1"⟩]) 40 (by decide)

theorem segString_X_eq (d : Nat) : segString d "X" = toString d ++ "\x7bX\x7d" := by
  unfold segString
  rw [String.append_assoc, String.append_assoc]
  congr 1

/-- C9: a Channel with no events rendered over any window with s < e yields
exactly one segment, of duration e - s and symbol X, and the rendered line
is the channel name, an ampersand, and that one segment. -/
theorem C9_empty_channel_render (size : Nat) (module name : String) {s e : Nat}
    (h : s < e) :
    tikzLoop (Channel.mk size module name []) e
        ((Channel.mk size module name []).value_at s) s = [segString (e - s) "X"] ∧
    Channel.to_tikz_line (Channel.mk size module name []) s e
        = name ++ " & " ++ toString (e - s) ++ "\x7bX\x7d" := by
  have hne : (Channel.mk size module name []).next_event s = none := rfl
  have hv : (Channel.mk size module name []).value_at s = "X" := rfl
  have hloop : tikzLoop (Channel.mk size module name []) e
      ((Channel.mk size module name []).value_at s) s = [segString (e - s) "X"] := by
    rw [hv]
    exact tikzLoop_none _ h hne
  refine ⟨hloop, ?_⟩
  unfold Channel.to_tikz_line
  rw [hloop]
  have hint : String.intercalate " " [name ++ " &", segString (e - s) "X"]
      = ((name ++ " &") ++ " ") ++ segString (e - s) "X" := rfl
  rw [hint, segString_X_eq]
  have hand : (" &" : String) ++ " " = " & " := by decide
  rw [String.append_assoc name, hand]
  rw [← String.append_assoc (name ++ " & ")]

/-- C9 witness: the empty channel "sig" over the window from 0 to 7. -/
theorem C9_empty_channel_render_witness :
    (0 : Nat) < 7 ∧
    (tikzLoop (Channel.mk 1 "m" "sig" []) 7
        ((Channel.mk 1 "m" "sig" []).value_at 0) 0 = [segString (7 - 0) "X"] ∧
      Channel.to_tikz_line (Channel.mk 1 "m" "sig" []) 0 7
        = "sig" ++ " & " ++ toString (7 - 0) ++ "\x7bX\x7d") :=
  ⟨by decide, C9_empty_channel_render 1 "m" "sig" (by decide)⟩

/-- C1: the renderer does not clamp a segment to the window end. For the
"enable" channel with events (0,"0"), (30,"1") and the window from 5 to 15
the code emits the single segment 25-at-0 (total duration 25, reaching past
the window), not the 10-at-0 segment the claim requires; the emitted line
differs from the claimed one. -/
theorem C1_render_overshoot :
    Channel.to_tikz_line (Channel.mk 1 "teste" "enable" [⟨0, "0"⟩, ⟨30, "1"⟩]) 5 15
        = "enable & 25\x7b0\x7d" ∧
    "enable & 25\x7b0\x7d" ≠ "enable & 10\x7b0\x7d" ∧
    (25 : Nat) ≠ 15 - 5 := by
  refine ⟨?_, by decide, by decide⟩
  have h1 : (Channel.mk 1 "teste" "enable" [⟨0, "0"⟩, ⟨30, "1"⟩]).next_event 5
      = some ⟨30, "1"⟩ := by decide
  unfold Channel.to_tikz_line
  rw [tikzLoop_some _ (by norm_num) h1]
  rw [tikzLoop_done _ (by norm_num)]
  decide

/-- C3: the chained comparison on line 53 never matches real or string
changes, so the timeline builder silently drops them, while scalar and
vector changes are appended; the claim (all four kinds qualify) fails for
the real and string kinds. -/
theorem C3_real_string_changes_dropped :
    time_changes [Token.timeTok 0, Token.realTok ⟨"a", '1'⟩] = some [(0, [])] ∧
    time_changes [Token.timeTok 0, Token.stringTok ⟨"a", 's'⟩] = some [(0, [])] ∧
    time_changes [Token.timeTok 0, Token.scalarTok ⟨"a", '1'⟩]
        = some [(0, [⟨"a", '1'⟩])] ∧
    time_changes [Token.timeTok 0, Token.vectorTok ⟨"a", '1'⟩]
        = some [(0, [⟨"a", '1'⟩])] ∧
    ∀ k : TokenKind, changeCond k ↔ (k = TokenKind.CHANGE_SCALAR ∨ k = TokenKind.CHANGE_VECTOR) := by
  refine ⟨by decide, by decide, by decide, by decide, ?_⟩
  intro k
  cases k <;> decide

/-- C2 counterexample: a value-change token whose id-code ("zz") matches no
declaration is processed without any error: the timeline builder records
it, and the channel reconstructor completes normally (result `some`),
producing a channel that silently ignores the change, instead of aborting
with an error as the claim requires. -/
theorem C2_counterexample :
    time_changes [Token.timeTok 0, Token.scalarTok ⟨"zz", '1'⟩]
        = some [(0, [⟨"zz", '1'⟩])] ∧
    to_events [⟨"enable", none, "a"⟩] [(0, [⟨"zz", '1'⟩])] = some [] := by
  refine ⟨by decide, by decide⟩

/-- C2 amended: when no change in the Timed Change Set matches any sibling
declaration of the channel, the reconstruction completes normally with no
events and no error (unmatched id-codes are silently ignored, provided the
sibling sort itself succeeds). -/
theorem C2_unmatched_silently_ignored (vars : List VarDecl)
    (tcs : List (Nat × List Change))
    (hsort : vars.length ≤ 1 ∨ ∀ v ∈ vars, v.bit_index.isSome)
    (hnm : ∀ e ∈ tcs, ∀ c ∈ e.2, ∀ v ∈ vars, c.id_code ≠ v.id_code) :
    to_events vars tcs = some [] := by
  have hs : ∃ svars, sortVarsDesc vars = some svars ∧ svars.Perm vars := by
    unfold sortVarsDesc
    by_cases h1 : vars.length ≤ 1
    · rw [if_pos h1]
      exact ⟨vars, rfl, List.Perm.refl _⟩
    · rcases hsort with h2 | h2
      · exact absurd h2 h1
      · rw [if_neg h1, if_pos h2]
        exact ⟨_, rfl, List.perm_insertionSort _ _⟩
  obtain ⟨svars, hs1, hperm⟩ := hs
  unfold to_events
  rw [hs1]
  refine toEventsLoop_nomatch ?_ _ _
  intro e he hm
  obtain ⟨c, hc, v, hv, hid⟩ := hm
  exact hnm e he c hc v (hperm.mem_iff.mp hv) hid

/-- C2 amended witness: one scalar sibling, one unmatched change. -/
theorem C2_unmatched_silently_ignored_witness :
    (([⟨"enable", none, "a"⟩] : List VarDecl).length ≤ 1 ∨
      ∀ v ∈ ([⟨"enable", none, "a"⟩] : List VarDecl), v.bit_index.isSome) ∧
    (∀ e ∈ ([(0, [⟨"zz", '1'⟩])] : List (Nat × List Change)), ∀ c ∈ e.2,
      ∀ v ∈ ([⟨"enable", none, "a"⟩] : List VarDecl), c.id_code ≠ v.id_code) ∧
    to_events [⟨"enable", none, "a"⟩] [(0, [⟨"zz", '1'⟩])] = some [] :=
  ⟨by decide, by decide,
    C2_unmatched_silently_ignored [⟨"enable", none, "a"⟩] [(0, [⟨"zz", '1'⟩])]
      (by decide) (by decide)⟩

/-- C4 counterexample: for siblings at bit-index 1 and bit-index 0 with
initial buffer "XX", a change of the bit-index 0 sibling to 1 at t = 5
produces the event (5, "1X") — the buffer is joined position 0 first — not
the claimed (5, "X1"). -/
theorem C4_counterexample :
    to_events [⟨"data", some 1, "b"⟩, ⟨"data", some 0, "a"⟩] [(5, [⟨"a", '1'⟩])]
        = some [⟨5, "1X"⟩] ∧
    some [ChannelEvent.mk 5 "1X"] ≠ some [ChannelEvent.mk 5 "X1"] := by
  refine ⟨by decide, by decide⟩

/-- C4 amended: the scenario yields exactly one ChannelEvent (5, "1X"):
the first character of the composite string is the bit-index 0 position
(updated to 1) and the second character is the bit-index 1 position (still
X); the result is the same for either declaration order. -/
theorem C4_low_bit_is_first_char :
    to_events [⟨"data", some 1, "b"⟩, ⟨"data", some 0, "a"⟩] [(5, [⟨"a", '1'⟩])]
        = some [⟨5, "1X"⟩] ∧
    to_events [⟨"data", some 0, "a"⟩, ⟨"data", some 1, "b"⟩] [(5, [⟨"a", '1'⟩])]
        = some [⟨5, "1X"⟩] := by
  refine ⟨by decide, by decide⟩

/-- C5 counterexample: with strictly increasing markers, a change that
rewrites the single bit to the value it already holds is still recorded as
dirty, so two consecutive ChannelEvents carry the same composite value
"0"; the no-equal-consecutive-values half of the claim fails. -/
theorem C5_counterexample :
    List.Pairwise (· < ·) (markerTimes [Token.timeTok 0, Token.scalarTok ⟨"a", '0'⟩,
      Token.timeTok 5, Token.scalarTok ⟨"a", '0'⟩]) ∧
    time_changes [Token.timeTok 0, Token.scalarTok ⟨"a", '0'⟩, Token.timeTok 5,
      Token.scalarTok ⟨"a", '0'⟩] = some [(0, [⟨"a", '0'⟩]), (5, [⟨"a", '0'⟩])] ∧
    to_events [⟨"enable", none, "a"⟩] [(0, [⟨"a", '0'⟩]), (5, [⟨"a", '0'⟩])]
        = some [⟨0, "0"⟩, ⟨5, "0"⟩] ∧
    (ChannelEvent.mk 0 "0").value = (ChannelEvent.mk 5 "0").value := by
  refine ⟨by decide, by decide, by decide, by decide⟩

/-- C5 amended: for a token sequence with strictly increasing timestamp
markers, every reconstructed ChannelEvent sequence is strictly increasing
in timestamp (the equal-consecutive-values half of the claim is dropped:
a change re-asserting the current value still emits an event). -/
theorem C5_strictly_increasing (tokens : List Token) (vars : List VarDecl)
    (tcs : List (Nat × List Change)) (evs : List ChannelEvent)
    (hpw : (markerTimes tokens).Pairwise (· < ·))
    (h1 : time_changes tokens = some tcs)
    (h2 : to_events vars tcs = some evs) :
    evs.Pairwise (fun a b => a.time < b.time) := by
  obtain ⟨svars, hs, hperm, hloop⟩ := to_events_elim h2
  obtain ⟨tail, htail, hsub, hlen, hfwd, hback⟩ := toEventsLoop_spec hloop
  simp only [List.nil_append] at htail
  subst htail
  have hkeys : tcs.map Prod.fst = markerTimes tokens := time_changes_keys hpw h1
  have hpw2 : (tcs.map Prod.fst).Pairwise (· < ·) := by
    rw [hkeys]
    exact hpw
  have hpwtail : (evs.map ChannelEvent.time).Pairwise (· < ·) := hpw2.sublist hsub
  exact List.pairwise_map.mp hpwtail

/-- C5 amended witness. -/
theorem C5_strictly_increasing_witness :
    List.Pairwise (fun a b : ChannelEvent => a.time < b.time)
      [⟨0, "0"⟩, ⟨5, "1"⟩] :=
  C5_strictly_increasing
    [Token.timeTok 0, Token.scalarTok ⟨"a", '0'⟩, Token.timeTok 5,
      Token.scalarTok ⟨"a", '1'⟩]
    [⟨"enable", none, "a"⟩]
    [(0, [⟨"a", '0'⟩]), (5, [⟨"a", '1'⟩])]
    [⟨0, "0"⟩, ⟨5, "1"⟩]
    (by decide) (by decide) (by decide)

/-- C6: for every entry (t, chs) of the Timed Change Set, the
reconstructed channel has an event at t exactly when some change of chs
matches some sibling declaration of the channel. -/
theorem C6_event_iff_dirty (tokens : List Token) (vars : List VarDecl)
    (tcs : List (Nat × List Change)) (evs : List ChannelEvent)
    (t : Nat) (chs : List Change)
    (h1 : time_changes tokens = some tcs)
    (h2 : to_events vars tcs = some evs)
    (hmem : (t, chs) ∈ tcs) :
    (∃ ev ∈ evs, ev.time = t) ↔ (∃ c ∈ chs, ∃ v ∈ vars, c.id_code = v.id_code) := by
  obtain ⟨svars, hs, hperm, hloop⟩ := to_events_elim h2
  obtain ⟨tail, htail, hsub, hlen, hfwd, hback⟩ := toEventsLoop_spec hloop
  simp only [List.nil_append] at htail
  subst htail
  have hnd := time_changes_nodup h1
  constructor
  · rintro ⟨ev, hev, rfl⟩
    obtain ⟨e2, he2, het, hm2⟩ := hback ev hev
    have he2m : (ev.time, e2.2) ∈ tcs := by
      rw [← het]
      exact he2
    have hchs : chs = e2.2 := keys_nodup_eq hnd hmem he2m
    have : chMatch svars chs := by
      rw [hchs]
      exact hm2
    exact (chMatch_perm hperm).mp this
  · intro hm
    have hm2 : chMatch svars chs := (chMatch_perm hperm).mpr hm
    exact hfwd (t, chs) hmem hm2

/-- C6 witness: one scalar sibling, one matching change at t = 0. -/
theorem C6_event_iff_dirty_witness :
    (∃ ev ∈ ([⟨0, "1"⟩] : List ChannelEvent), ev.time = 0) ↔
    (∃ c ∈ ([⟨"a", '1'⟩] : List Change),
      ∃ v ∈ ([⟨"en", none, "a"⟩] : List VarDecl), c.id_code = v.id_code) :=
  C6_event_iff_dirty [Token.timeTok 0, Token.scalarTok ⟨"a", '1'⟩]
    [⟨"en", none, "a"⟩] [(0, [⟨"a", '1'⟩])] [⟨0, "1"⟩] 0 [⟨"a", '1'⟩]
    (by decide) (by decide) (by decide)

/-- C8: when the sibling declarations carry bit-indices below the sibling
count (in particular, bit-indices 0..N-1), every emitted ChannelEvent has
a composite value string of length equal to the number of siblings. The
statement quantifies over every order of the sibling list, so the property
holds regardless of declaration order in the source sequence. -/
theorem C8_composite_length (vars : List VarDecl) (tcs : List (Nat × List Change))
    (evs : List ChannelEvent)
    (_hidx : ∀ v ∈ vars, ∃ i, v.bit_index = some i ∧ i < vars.length)
    (h : to_events vars tcs = some evs) :
    ∀ ev ∈ evs, ev.value.length = vars.length := by
  obtain ⟨svars, hs, hperm, hloop⟩ := to_events_elim h
  obtain ⟨tail, htail, hsub, hlen, hfwd, hback⟩ := toEventsLoop_spec hloop
  simp only [List.nil_append] at htail
  subst htail
  intro ev hev
  rw [hlen ev hev]
  simp

/-- C8 witness: the two-sibling channel of Scenario E, both orders give a
two-character composite. -/
theorem C8_composite_length_witness :
    (∀ v ∈ ([⟨"data", some 1, "b"⟩, ⟨"data", some 0, "a"⟩] : List VarDecl),
      ∃ i, v.bit_index = some i ∧
        i < ([⟨"data", some 1, "b"⟩, ⟨"data", some 0, "a"⟩] : List VarDecl).length) ∧
    ∀ ev ∈ ([⟨5, "1X"⟩] : List ChannelEvent),
      ev.value.length
        = ([⟨"data", some 1, "b"⟩, ⟨"data", some 0, "a"⟩] : List VarDecl).length :=
  ⟨by decide,
    C8_composite_length [⟨"data", some 1, "b"⟩, ⟨"data", some 0, "a"⟩]
      [(5, [⟨"a", '1'⟩])] [⟨5, "1X"⟩] (by decide) (by decide)⟩

/-- C10: when the stream contains a timestamp marker for t whose suffix
holds no further marker for t, the Timed Change Set maps t to exactly the
changes recorded after that last marker (up to the next marker of any
value); in particular a repeated marker resets the list, discarding the
changes recorded after any earlier marker carrying the same t. -/
theorem C10_last_marker_wins (pre post : List Token) (t : Nat)
    (tcs : List (Nat × List Change))
    (hlast : t ∉ markerTimes post)
    (h : time_changes (pre ++ Token.timeTok t :: post) = some tcs) :
    dictLookup t tcs = some (recordedChanges post) := by
  unfold time_changes at h
  rcases hg : timeChangesGo (pre ++ Token.timeTok t :: post) none [] with _ | out
  · rw [hg] at h
    cases h
  · rw [hg] at h
    cases h
    rw [timeChangesGo_append] at hg
    rcases hpre : timeChangesGo pre none [] with _ | ⟨time1, acc1⟩
    · simp only [hpre] at hg
      cases hg
    · simp only [hpre] at hg
      rw [timeChangesGo_time] at hg
      have hl : dictLookup t (dictSetEmpty acc1 t) = some [] :=
        dictSetEmpty_lookup_self t acc1
      have hfin := timeChangesGo_after_last_marker hlast hl hg
      simpa using hfin

/-- C10 witness: two markers for t = 0; the change recorded between them
(id "a") is discarded, the change after the second marker (id "b") is kept. -/
theorem C10_last_marker_wins_witness :
    (0 ∉ markerTimes [Token.scalarTok ⟨"b", '0'⟩]) ∧
    dictLookup 0 [(0, [⟨"b", '0'⟩])]
      = some (recordedChanges [Token.scalarTok ⟨"b", '0'⟩]) :=
  ⟨by decide,
    C10_last_marker_wins [Token.timeTok 0, Token.scalarTok ⟨"a", '1'⟩]
      [Token.scalarTok ⟨"b", '0'⟩] 0 [(0, [⟨"b", '0'⟩])] (by decide) (by decide)⟩

end Vcd
